import Mathlib

set_option maxHeartbeats 1000000

/-!
Shallow embedding of the dependency-resolution and execution-caching engine of
playwright-relay: the key parser/normalizer (src/parser.ts, src/relay.ts), the
result store (src/store.ts), the fuzzy result lookup and relay operations
(src/relay.ts), the sequential executor (src/relay.ts), and the dependency
graph with cycle detection and topological sorting (src/graph.ts).
-/

/-- Test status (src/types.ts `TestStatus`). -/
inductive TestStatus where
  | pending
  | running
  | passed
  | failed
  | skipped
deriving DecidableEq, Repr

/-- JS whitespace characters matched by `\s`, restricted to the ASCII range
(the keys fed to these regexes are ASCII test titles and file names). -/
def isWsChar (c : Char) : Bool :=
  c = ' ' || c = '\t' || c = '\n' || c = '\r' || c = Char.ofNat 11 || c = Char.ofNat 12

/-- Does a character list match the first capture group `.+\.spec\.[tj]s` of
`CROSS_FILE_REGEX` (src/parser.ts)?  `.` does not match a newline, and `.+`
requires at least one character before the literal suffix. -/
def fileGroupOk (pre : List Char) : Bool :=
  decide (9 ≤ pre.length) &&
    (List.isSuffixOf ".spec.ts".toList pre || List.isSuffixOf ".spec.js".toList pre) &&
    pre.all (fun c => c ≠ '\n')

/-- Backtracking search for `\s*(.+)$` on the text after the `>` of
`CROSS_FILE_REGEX`: `\s*` greedily eats up to `k` whitespace characters and
backs off until `(.+)$` (a nonempty newline-free remainder) matches. -/
def searchTitle (t : List Char) : Nat → Option (List Char)
  | 0 =>
    if !t.isEmpty && t.all (fun c => c ≠ '\n') then some t else none
  | k + 1 =>
    let cand := t.drop (k + 1)
    if !cand.isEmpty && cand.all (fun c => c ≠ '\n') then some cand
    else searchTitle t k

/-- Match `\s*>\s*(.+)$` (the tail of `CROSS_FILE_REGEX`) against the part of
the key after the file capture group; returns the raw captured title. -/
def restMatch (post : List Char) : Option (List Char) :=
  match post.dropWhile isWsChar with
  | '>' :: rest => searchTitle rest (rest.takeWhile isWsChar).length
  | _ => none

/-- Greedy split search for `CROSS_FILE_REGEX`: the regex engine gives the
first capture group the longest prefix for which the rest of the pattern still
matches, so try splits from the longest prefix downward. -/
def searchSplit (cs : List Char) : Nat → Option (List Char × List Char)
  | 0 => none
  | i + 1 =>
    let pre := cs.take (i + 1)
    match if fileGroupOk pre then restMatch (cs.drop (i + 1)) else none with
    | some title => some (pre, title)
    | none => searchSplit cs i

/-- JS `String.prototype.trim`: strip whitespace from both ends. -/
def trimChars (cs : List Char) : List Char :=
  ((cs.dropWhile isWsChar).reverse.dropWhile isWsChar).reverse

/-- Result of `parseTestKey` (src/parser.ts): optional file plus test title. -/
structure ParsedKey where
  file : Option String
  testTitle : String
deriving DecidableEq, Repr

/-- `parseTestKey` (src/parser.ts): match the key against `CROSS_FILE_REGEX`
`^(.+\.spec\.[tj]s)\s*>\s*(.+)$`; on a match return the trimmed captures,
otherwise the whole key as the title. -/
def parseTestKey (key : String) : ParsedKey :=
  match searchSplit key.toList key.toList.length with
  | some (pre, title) =>
    { file := some (String.mk (trimChars pre)), testTitle := String.mk (trimChars title) }
  | none => { file := none, testTitle := key }

/-- `normalizeKey` (src/relay.ts): ordered candidate lookup keys for a
dependency reference, the reference itself first. -/
def normalizeKey (key : String) (currentFile : Option String) : List String :=
  let p := parseTestKey key
  match p.file with
  | some f => [key, f ++ " > " ++ p.testTitle, p.testTitle]
  | none =>
    match currentFile with
    | some cf =>
      let fileName := (cf.splitOn "/").getLastD cf
      [key, fileName ++ " > " ++ p.testTitle]
    | none => [key]

/-- Payloads relayed between tests are opaque `unknown` values; model them as
naturals. -/
abbrev Data := Nat

/-- A cached result record (src/types.ts `TestResult`). -/
structure TestResultR where
  status : TestStatus
  data : Option Data
  error : Option String
  timestamp : Nat
deriving DecidableEq, Repr

/-- The in-memory `ResultStore` (src/store.ts): an insertion-ordered map of
result records plus the pending-execution table.  Promise objects are
identified by numeric handles (`nextHandle` is the allocator); `now` stands
for `Date.now()`. -/
structure StoreSt where
  results : List (String × TestResultR)
  pending : List (String × Nat)
  nextHandle : Nat
  now : Nat
deriving DecidableEq, Repr

/-- First binding for a key in an insertion-ordered association list
(JS `Map.get`). -/
def alistGet {α : Type} (m : List (String × α)) (k : String) : Option α :=
  match m with
  | [] => none
  | (k', v) :: rest => if k' = k then some v else alistGet rest k

/-- JS `Map.set`: overwrite an existing binding in place, else append. -/
def alistSet {α : Type} (m : List (String × α)) (k : String) (v : α) :
    List (String × α) :=
  match m with
  | [] => [(k, v)]
  | (k', v') :: rest => if k' = k then (k', v) :: rest else (k', v') :: alistSet rest k v

/-- JS `Map.delete`. -/
def alistErase {α : Type} (m : List (String × α)) (k : String) : List (String × α) :=
  m.filter (fun e => decide (e.1 ≠ k))

/-- `ResultStore.set` (src/store.ts): overwrite the record, stamping the
current time. -/
def ResultStore.set (s : StoreSt) (key : String) (status : TestStatus)
    (data : Option Data) (error : Option String) : StoreSt :=
  { s with results := alistSet s.results key ⟨status, data, error, s.now⟩ }

/-- `ResultStore.has` (src/store.ts). -/
def ResultStore.has (s : StoreSt) (key : String) : Bool :=
  (alistGet s.results key).isSome

/-- `ResultStore.getStatus` (src/store.ts): `'pending'` when absent. -/
def ResultStore.getStatus (s : StoreSt) (key : String) : TestStatus :=
  match alistGet s.results key with
  | some r => r.status
  | none => .pending

/-- `ResultStore.getData` (src/store.ts). -/
def ResultStore.getData (s : StoreSt) (key : String) : Option Data :=
  match alistGet s.results key with
  | some r => r.data
  | none => none

/-- `ResultStore.getAll` (src/store.ts): only `passed` records carrying data. -/
def ResultStore.getAll (s : StoreSt) : List (String × Data) :=
  s.results.filterMap (fun e =>
    match e.2.status, e.2.data with
    | .passed, some d => some (e.1, d)
    | _, _ => none)

/-- `ResultStore.setPending` (src/store.ts). -/
def ResultStore.setPending (s : StoreSt) (key : String) (h : Nat) : StoreSt :=
  { s with pending := alistSet s.pending key h }

/-- `ResultStore.getPending` (src/store.ts). -/
def ResultStore.getPending (s : StoreSt) (key : String) : Option Nat :=
  alistGet s.pending key

/-- `ResultStore.removePending` (src/store.ts). -/
def ResultStore.removePending (s : StoreSt) (key : String) : StoreSt :=
  { s with pending := alistErase s.pending key }

/-- `ResultStore.delete` (src/store.ts): drop the record and the pending
handle for the key. -/
def ResultStore.delete (s : StoreSt) (key : String) : StoreSt :=
  { s with results := alistErase s.results key, pending := alistErase s.pending key }

/-- `ResultStore.keys` (src/store.ts): stored keys in insertion order. -/
def ResultStore.keys (s : StoreSt) : List String :=
  s.results.map (fun e => e.1)

/-- `ResultLookup` (src/types.ts); an absent `data` field is `none`. -/
structure ResultLookup where
  found : Bool
  data : Option Data
  status : TestStatus
deriving DecidableEq, Repr

/-- JS `String.prototype.endsWith`. -/
def strEndsWith (s suffix : String) : Bool :=
  List.isSuffixOf suffix.toList s.toList

/-- Is the first list a prefix of the second? -/
def leadsWith : List Char → List Char → Bool
  | [], _ => true
  | _ :: _, [] => false
  | c :: cs, h :: hs => c = h && leadsWith cs hs

/-- Does `hay` contain `needle` as a contiguous segment? -/
def containsSeg (hay needle : List Char) : Bool :=
  match hay with
  | [] => needle.isEmpty
  | _ :: hs => leadsWith needle hay || containsSeg hs needle

/-- JS `String.prototype.includes`. -/
def strIncludes (hay needle : String) : Bool :=
  containsSeg hay.toList needle.toList

/-- The fuzzy scan of `findResultWithFuzzyMatch` (src/relay.ts): walk the
stored keys in insertion order and return the first record whose key matches
condition (a) (parsed file equals the reference file and its title ends with
the reference title) or condition (b) (the stored key contains the file name
and ends with the reference title). -/
def fuzzyScan (s : StoreSt) (file testTitle : String) :
    List (String × TestResultR) → ResultLookup
  | [] => { found := false, data := none, status := .pending }
  | (storedKey, _) :: rest =>
    let parsed := parseTestKey storedKey
    if decide (parsed.file = some file) && strEndsWith parsed.testTitle testTitle then
      { found := true, data := ResultStore.getData s storedKey
        status := ResultStore.getStatus s storedKey }
    else if strIncludes storedKey file && strEndsWith storedKey testTitle then
      { found := true, data := ResultStore.getData s storedKey
        status := ResultStore.getStatus s storedKey }
    else fuzzyScan s file testTitle rest

/-- The exact-match phase shared by the `findResult` variants: probe the store
with each candidate key in order. -/
def exactProbe (s : StoreSt) : List String → Option ResultLookup
  | [] => none
  | k :: rest =>
    if ResultStore.has s k then
      some { found := true, data := ResultStore.getData s k
             status := ResultStore.getStatus s k }
    else exactProbe s rest

/-- `findResultWithFuzzyMatch` (src/relay.ts): exact candidate probing first,
then fuzzy matching for cross-file references (`if (file && testTitle)`
requires both captures to be nonempty strings). -/
def findResultWithFuzzyMatch (s : StoreSt) (key : String)
    (currentFile : Option String) : ResultLookup :=
  match exactProbe s (normalizeKey key currentFile) with
  | some r => r
  | none =>
    let p := parseTestKey key
    match p.file with
    | some f =>
      if decide (f ≠ "") && decide (p.testTitle ≠ "") then
        fuzzyScan s f p.testTitle s.results
      else { found := false, data := none, status := .pending }
    | none => { found := false, data := none, status := .pending }

/-- `findResult` (src/relay.ts) delegates to the fuzzy lookup. -/
def findResult (s : StoreSt) (key : String) (currentFile : Option String) :
    ResultLookup :=
  findResultWithFuzzyMatch s key currentFile

/-- `relay.from` (src/relay.ts `createRelay`): synchronous read of a
dependency's stored data; a thrown `Error` is modeled as `.error`. -/
def relayFrom (s : StoreSt) (currentFile : Option String) (testKey : String) :
    Except String (Option Data) :=
  let result := findResult s testKey currentFile
  if result.found = false then
    .error ("Dependency not executed: " ++ testKey)
  else if result.status = .failed then
    .error ("Dependency failed: " ++ testKey)
  else
    .ok result.data

/-- Behavior when a dependency fails (src/types.ts
`DependencyFailureAction`). -/
inductive FailureAction where
  | skip
  | fail
deriving DecidableEq, Repr

/-- `RequiredRelayConfig` (src/relay.ts `DEFAULT_CONFIG` shape). -/
structure RelayConfig where
  dependencyTimeout : Nat
  onDependencyFailure : FailureAction
  persistCache : Bool
deriving DecidableEq, Repr

/-- `DependencyDefinition` (src/types.ts): `executeDependencies` consults only
`fullKey`, so the parsed file/title fields are left out of the embedding. -/
structure DepDef where
  fullKey : String
deriving DecidableEq, Repr

/-- A test-registry entry; the body itself lives in the executor environment's
`bodies` map. -/
structure RegisteredTest where
  dependencies : List DepDef
deriving DecidableEq, Repr

/-- Outcome of running a task body.  Bodies are modeled as pure and
immediately settling, so the `dependencyTimeout` race is always won by the
body and the timeout branch never fires. -/
inductive BodyRes where
  | ok (d : Data)
  | err (msg : String)
deriving DecidableEq, Repr

/-- What `executeTest` hands back to its awaiter: an already-registered
pending handle (single-flight attach) or a settled value (`none` models
`undefined`). -/
inductive ExecOut where
  | handle (h : Nat)
  | value (d : Option Data)
deriving DecidableEq, Repr

/-- The mutually recursive executor functions of src/relay.ts, fused into one
fuel-indexed dispatcher so the recursion is structural on the fuel: `.test` is
`executeTest`, `.deps` is `executeDependencies`, and `.depKeys` is the
candidate-key loop inside `executeDependencies` for one dependency. -/
inductive ExecCall where
  | test (key : String) (deps : List DepDef)
  | deps (ds : List DepDef)
  | depKeys (ks : List String) (rest : List DepDef)

/-- Executor environment: configuration, test registry, pure task bodies and
the requester's current file. -/
structure ExecEnv where
  cfg : RelayConfig
  registry : List (String × RegisteredTest)
  bodies : String → BodyRes
  currentFile : Option String

/-- One sequential execution step; the third component logs the keys whose
bodies were invoked, in invocation order.  A JS exception is `.error` and, as
in JS, leaves all store mutations made so far in place. -/
def runExec (env : ExecEnv) : Nat → ExecCall → StoreSt →
    Except String ExecOut × StoreSt × List String
  | 0, _, s => (.error "fuel exhausted", s, [])
  | fuel + 1, .test key deps, s =>
    -- executeTest (src/relay.ts lines 116-166)
    match ResultStore.getPending s key with
    | some h => (.ok (.handle h), s, [])
    | none =>
      if ResultStore.has s key && decide (ResultStore.getStatus s key = .passed) then
        (.ok (.value (ResultStore.getData s key)), s, [])
      else if ResultStore.has s key && decide (ResultStore.getStatus s key = .failed) then
        if env.cfg.onDependencyFailure = .fail then
          (.error ("Dependency previously failed: " ++ key), s, [])
        else (.ok (.value none), s, [])
      else
        match runExec env fuel (.deps deps) s with
        | (.error e, s1, l1) => (.error e, s1, l1)
        | (.ok _, s1, l1) =>
          let s2 := ResultStore.set s1 key .running none none
          -- the promise is created: fn() starts synchronously, then the
          -- handle is registered; with pure bodies the race settles at once
          let h := s2.nextHandle
          let s3 := { s2 with nextHandle := s2.nextHandle + 1 }
          let res := env.bodies key
          let s4 := ResultStore.setPending s3 key h
          match res with
          | .ok d =>
            let s5 := ResultStore.set s4 key .passed (some d) none
            (.ok (.value (some d)), ResultStore.removePending s5 key, l1 ++ [key])
          | .err msg =>
            let s5 := ResultStore.set s4 key .failed none (some msg)
            if env.cfg.onDependencyFailure = .fail then
              (.error msg, ResultStore.removePending s5 key, l1 ++ [key])
            else
              (.ok (.value none), ResultStore.removePending s5 key, l1 ++ [key])
  | _ + 1, .deps [], s => (.ok (.value none), s, [])
  | fuel + 1, .deps (d :: rest), s =>
    runExec env fuel (.depKeys (normalizeKey d.fullKey env.currentFile) rest) s
  | fuel + 1, .depKeys [] rest, s =>
    -- `executed` stayed false: console.warn, then continue with the next dep
    runExec env fuel (.deps rest) s
  | fuel + 1, .depKeys (k :: ks) rest, s =>
    if ResultStore.has s k then
      if decide (ResultStore.getStatus s k = .failed) &&
          decide (env.cfg.onDependencyFailure = .fail) then
        (.error ("Dependency failed: " ++ k), s, [])
      else runExec env fuel (.deps rest) s
    else
      match alistGet env.registry k with
      | some rt =>
        match runExec env fuel (.test k rt.dependencies) s with
        | (.error e, s1, l1) => (.error e, s1, l1)
        | (.ok _, s1, l1) =>
          match runExec env fuel (.deps rest) s1 with
          | (r2, s2, l2) => (r2, s2, l1 ++ l2)
      | none => runExec env fuel (.depKeys ks rest) s

/-- `executeTest` (src/relay.ts lines 116-166). -/
def executeTest (env : ExecEnv) (fuel : Nat) (key : String) (deps : List DepDef)
    (s : StoreSt) : Except String ExecOut × StoreSt × List String :=
  runExec env fuel (.test key deps) s

/-- `executeDependencies` (src/relay.ts lines 86-114). -/
def executeDependencies (env : ExecEnv) (fuel : Nat) (deps : List DepDef)
    (s : StoreSt) : Except String ExecOut × StoreSt × List String :=
  runExec env fuel (.deps deps) s

/-- What `relay.require` resolves to: a settled value, or the eventual
settlement of an attached in-flight handle. -/
inductive ReqOut where
  | val (d : Option Data)
  | fromHandle (h : Nat)
deriving DecidableEq, Repr

/-- The registry probe loop of `relay.require` (src/relay.ts). -/
def requireLoop (env : ExecEnv) (fuel : Nat) (testKey : String) :
    List String → StoreSt → Except String ReqOut × StoreSt × List String
  | [], s => (.error ("not found in registry: " ++ testKey), s, [])
  | k :: ks, s =>
    match alistGet env.registry k with
    | some rt =>
      match runExec env fuel (.test k rt.dependencies) s with
      | (.ok (.handle h), s1, l1) => (.ok (.fromHandle h), s1, l1)
      | (.ok (.value d), s1, l1) => (.ok (.val d), s1, l1)
      | (.error e, s1, l1) => (.error e, s1, l1)
    | none => requireLoop env fuel testKey ks s

/-- `relay.require` (src/relay.ts `createRelay`): return the found passed
result, otherwise execute the first registered candidate. -/
def relayRequire (env : ExecEnv) (fuel : Nat) (testKey : String) (s : StoreSt) :
    Except String ReqOut × StoreSt × List String :=
  let result := findResult s testKey env.currentFile
  if result.found = true ∧ result.status = .passed then
    (.ok (.val result.data), s, [])
  else
    requireLoop env fuel testKey (normalizeKey testKey env.currentFile) s

/-- `relay.rerun` (src/relay.ts `createRelay`): delete every candidate form of
the key from the store, then `require` it again. -/
def relayRerun (env : ExecEnv) (fuel : Nat) (testKey : String) (s : StoreSt) :
    Except String ReqOut × StoreSt × List String :=
  let s' := (normalizeKey testKey env.currentFile).foldl
      (fun acc k => ResultStore.delete acc k) s
  relayRequire env fuel testKey s'

/-- `DependencyGraph` state (src/graph.ts): registered node ids plus forward
and reverse edge maps, all insertion ordered. -/
structure Graph where
  nodes : List String
  edges : List (String × List String)
  reverseEdges : List (String × List String)
deriving DecidableEq, Repr

/-- A freshly constructed `DependencyGraph`. -/
def Graph.empty : Graph := ⟨[], [], []⟩

/-- `this.edges.get(id) ?? new Set()` as a list of dependency ids. -/
def Graph.deps (g : Graph) (id : String) : List String :=
  (alistGet g.edges id).getD []

/-- `this.reverseEdges.get(id) ?? new Set()`. -/
def Graph.revDeps (g : Graph) (id : String) : List String :=
  (alistGet g.reverseEdges id).getD []

/-- `getDependencies` (src/graph.ts). -/
def Graph.getDependencies (g : Graph) (id : String) : List String := g.deps id

/-- `getDependents` (src/graph.ts). -/
def Graph.getDependents (g : Graph) (id : String) : List String := g.revDeps id

/-- JS `Set.add` on an insertion-ordered set. -/
def setAdd (l : List String) (x : String) : List String :=
  if x ∈ l then l else l ++ [x]

/-- `addTest` (src/graph.ts): register the node id and make sure both edge
maps have an entry for it, preserving any existing edge sets. -/
def Graph.addTest (g : Graph) (id : String) : Graph :=
  { nodes := setAdd g.nodes id
    edges := alistSet g.edges id ((alistGet g.edges id).getD [])
    reverseEdges := alistSet g.reverseEdges id ((alistGet g.reverseEdges id).getD []) }

/-- `addDependency` (src/graph.ts): `fromId` depends on `toId`; both edge maps
are updated together. -/
def Graph.addDependency (g : Graph) (fromId toId : String) : Graph :=
  { nodes := g.nodes
    edges := alistSet g.edges fromId (setAdd ((alistGet g.edges fromId).getD []) toId)
    reverseEdges := alistSet g.reverseEdges toId
      (setAdd ((alistGet g.reverseEdges toId).getD []) fromId) }

/-- `clear` (src/graph.ts). -/
def Graph.clear (_ : Graph) : Graph := Graph.empty

/-- The edge relation of the graph: `a` depends on `b`. -/
def Graph.Edge (g : Graph) (a b : String) : Prop := b ∈ g.deps a

/-- Every id a DFS over the graph can ever reach: registered nodes, edge-map
keys, and edge targets. -/
def graphUniv (g : Graph) : List String :=
  g.nodes ++ g.edges.map (fun e => e.1) ++ (g.edges.map (fun e => e.2)).flatten

/-- Number of universe ids not yet visited: the DFS termination measure. -/
def unvisited (g : Graph) (vis : List String) : Nat :=
  ((graphUniv g).filter (fun x => decide (x ∉ vis))).length

theorem alistGet_some_mem_keys {α : Type} {m : List (String × α)} {k : String} {v : α}
    (h : alistGet m k = some v) : k ∈ m.map (fun e => e.1) := by
  induction m with
  | nil => simp [alistGet] at h
  | cons e rest ih =>
    by_cases he : e.1 = k
    · simp [he]
    · rw [show e = (e.1, e.2) from rfl, alistGet] at h
      simp only [he, if_false] at h
      simp [ih h]

theorem Graph.deps_eq_nil_of_not_univ {g : Graph} {d : String}
    (h : d ∉ graphUniv g) : g.deps d = [] := by
  unfold Graph.deps
  cases hg : alistGet g.edges d with
  | none => simp
  | some l =>
    exact absurd (by simp [graphUniv, alistGet_some_mem_keys hg] :
      d ∈ graphUniv g) h

theorem length_filter_le_of_imp {α : Type} (l : List α) (p q : α → Bool)
    (h : ∀ x, p x = true → q x = true) :
    (l.filter p).length ≤ (l.filter q).length := by
  induction l with
  | nil => simp
  | cons a rest ih =>
    by_cases hp : p a = true
    · simp [List.filter_cons, hp, h a hp]
      omega
    · have hp' : p a = false := by revert hp; cases p a <;> simp
      by_cases hq : q a = true
      · simp [List.filter_cons, hp', hq]
        omega
      · have hq' : q a = false := by revert hq; cases q a <;> simp
        simp [List.filter_cons, hp', hq']
        exact ih

theorem length_filter_lt_of_imp {α : Type} (l : List α) (p q : α → Bool) (a : α)
    (h : ∀ x, p x = true → q x = true) (ha : a ∈ l) (hqa : q a = true)
    (hpa : p a = false) :
    (l.filter p).length < (l.filter q).length := by
  induction l with
  | nil => simp at ha
  | cons b rest ih =>
    rcases List.mem_cons.mp ha with hb | hrest
    · subst hb
      have h1 := length_filter_le_of_imp rest p q h
      simp [List.filter_cons, hpa, hqa]
      omega
    · by_cases hp : p b = true
      · have hih := ih hrest
        simp [List.filter_cons, hp, h b hp]
        omega
      · have hp' : p b = false := by revert hp; cases p b <;> simp
        by_cases hq : q b = true
        · simp [List.filter_cons, hp', hq]
          exact Nat.lt_succ_of_lt (ih hrest)
        · have hq' : q b = false := by revert hq; cases q b <;> simp
          simp [List.filter_cons, hp', hq']
          exact ih hrest

theorem unvisited_le_of_subset {g : Graph} {vis vis' : List String}
    (h : ∀ x ∈ vis, x ∈ vis') : unvisited g vis' ≤ unvisited g vis := by
  apply length_filter_le_of_imp
  intro x hx
  simp only [decide_eq_true_eq] at hx ⊢
  exact fun hmem => hx (h x hmem)

theorem unvisited_lt_cons {g : Graph} {vis : List String} {d : String}
    (hu : d ∈ graphUniv g) (hd : d ∉ vis) :
    unvisited g (d :: vis) < unvisited g vis := by
  apply length_filter_lt_of_imp _ _ _ d _ hu
  · simpa using hd
  · simp
  · intro x hx
    simp only [decide_eq_true_eq, List.mem_cons] at hx ⊢
    exact fun hmem => hx (Or.inr hmem)

theorem unvisited_cons_eq {g : Graph} {vis : List String} {d : String}
    (hu : d ∉ graphUniv g) : unvisited g (d :: vis) = unvisited g vis := by
  unfold unvisited
  congr 1
  apply List.filter_congr
  intro x hx
  have hxd : x ≠ d := fun h => hu (h ▸ hx)
  simp [List.mem_cons, hxd]

/-- The shared post-order DFS of `topologicalSort` and `getExecutionOrder`
(src/graph.ts): process a worklist of ids, skipping visited ones, visiting
each id's dependencies before pushing the id itself.  The recursive `visit` of
the source is inlined into the worklist loop; the subtype on the returned
visited set records that the set only grows, which drives termination. -/
def visitAll (g : Graph) (ds vis acc : List String) :
    {p : List String × List String // ∀ x ∈ vis, x ∈ p.1} :=
  match ds with
  | [] => ⟨(vis, acc), fun _ hx => hx⟩
  | k :: rest =>
    if hd : k ∈ vis then
      visitAll g rest vis acc
    else
      let r1 := visitAll g (g.deps k) (k :: vis) acc
      let r2 := visitAll g rest r1.1.1 (r1.1.2 ++ [k])
      ⟨r2.1, fun x hx => r2.2 x (r1.2 x (List.mem_cons_of_mem k hx))⟩
termination_by (unvisited g vis, ds.length)
decreasing_by
  · exact Prod.Lex.right _ (by simp)
  · by_cases hu : k ∈ graphUniv g
    · exact Prod.Lex.left _ _ (unvisited_lt_cons hu hd)
    · rw [unvisited_cons_eq hu, Graph.deps_eq_nil_of_not_univ hu]
      exact Prod.Lex.right _ (by simp)
  · have hle : unvisited g r1.1.1 ≤ unvisited g vis :=
      unvisited_le_of_subset (fun x hx => r1.2 x (List.mem_cons_of_mem k hx))
    rcases Nat.lt_or_ge (unvisited g r1.1.1) (unvisited g vis) with hlt | hge
    · exact Prod.Lex.left _ _ hlt
    · have heq : unvisited g r1.1.1 = unvisited g vis := Nat.le_antisymm hle hge
      rw [heq]
      exact Prod.Lex.right _ (by simp)

/-- The recursion-stack DFS of `validateNoCycles` (src/graph.ts), with the
recursive `visit` inlined into the worklist loop: `path` is the chain of ids
on the current recursion stack (the `stack` set of the source holds exactly
the ids of `path`), `vis` the visited set.  Revisiting a stacked id throws
`CircularDependencyError([...path.slice(path.indexOf(node)), node])`,
modeled as `.error`. -/
def cvisitAll (g : Graph) (ds path vis : List String) :
    Except (List String) {v : List String // ∀ x ∈ vis, x ∈ v} :=
  match ds with
  | [] => .ok ⟨vis, fun _ hx => hx⟩
  | k :: rest =>
    if k ∈ path then
      .error (path.drop (path.indexOf k) ++ [k])
    else if hd : k ∈ vis then
      cvisitAll g rest path vis
    else
      match cvisitAll g (g.deps k) (path ++ [k]) (k :: vis) with
      | .error c => .error c
      | .ok r1 =>
        match cvisitAll g rest path r1.1 with
        | .error c => .error c
        | .ok r2 => .ok ⟨r2.1, fun x hx => r2.2 x (r1.2 x (List.mem_cons_of_mem k hx))⟩
termination_by (unvisited g vis, ds.length)
decreasing_by
  · exact Prod.Lex.right _ (by simp)
  · by_cases hu : k ∈ graphUniv g
    · exact Prod.Lex.left _ _ (unvisited_lt_cons hu hd)
    · rw [unvisited_cons_eq hu, Graph.deps_eq_nil_of_not_univ hu]
      exact Prod.Lex.right _ (by simp)
  · have hle : unvisited g r1.1 ≤ unvisited g vis :=
      unvisited_le_of_subset (fun x hx => r1.2 x (List.mem_cons_of_mem k hx))
    rcases Nat.lt_or_ge (unvisited g r1.1) (unvisited g vis) with hlt | hge
    · exact Prod.Lex.left _ _ hlt
    · have heq : unvisited g r1.1 = unvisited g vis := Nat.le_antisymm hle hge
      rw [heq]
      exact Prod.Lex.right _ (by simp)

/-- `validateNoCycles` (src/graph.ts): DFS from every registered node with a
shared visited set and an empty recursion stack; `.error c` models throwing
`CircularDependencyError` with cycle path `c`. -/
def Graph.validateNoCycles (g : Graph) : Except (List String) Unit :=
  match cvisitAll g g.nodes [] [] with
  | .error c => .error c
  | .ok _ => .ok ()

/-- `topologicalSort` (src/graph.ts): run `validateNoCycles` first (failing
the whole call on a cycle), then the post-order DFS over all nodes. -/
def Graph.topologicalSort (g : Graph) : Except (List String) (List String) :=
  match g.validateNoCycles with
  | .error c => .error c
  | .ok _ => .ok (visitAll g g.nodes [] []).1.2

/-- `getExecutionOrder` (src/graph.ts): the same post-order DFS restricted to
one id's closure, with no cycle validation. -/
def Graph.getExecutionOrder (g : Graph) (testId : String) : List String :=
  (visitAll g [testId] [] []).1.2

/-- A client-visible mutation of the dependency graph. -/
inductive GraphOp where
  | addTest (id : String)
  | addDependency (fromId toId : String)
  | clear

/-- Apply one graph operation. -/
def applyOp (g : Graph) : GraphOp → Graph
  | .addTest id => g.addTest id
  | .addDependency a b => g.addDependency a b
  | .clear => g.clear

/-- Apply a sequence of graph operations to a freshly constructed graph. -/
def applyOps (ops : List GraphOp) : Graph :=
  ops.foldl applyOp Graph.empty

/-- Directed reachability along dependency edges. -/
def Graph.Walk (g : Graph) : String → String → Prop :=
  Relation.ReflTransGen g.Edge

/-- A nonempty closed walk through `x`: the graph is cyclic at `x`. -/
def Graph.CycleAt (g : Graph) (x : String) : Prop :=
  Relation.TransGen g.Edge x x

/-- No nonempty closed walk anywhere in the graph. -/
def Graph.Acyclic (g : Graph) : Prop := ∀ x, ¬ g.CycleAt x

/-- The id sequence of a reported cycle is genuine: at least two entries,
first id equal to last id, and consecutive ids connected by edges. -/
def RealCycle (g : Graph) (c : List String) : Prop :=
  2 ≤ c.length ∧ c.head? = c.getLast? ∧ List.Chain' g.Edge c

/-- Every fully processed (visited, off-stack) id only reaches cycle-free
territory: the central invariant of the cycle-detection DFS. -/
def CycleFreeFrom (g : Graph) (vis path : List String) : Prop :=
  ∀ x ∈ vis, x ∉ path → ∀ y, g.Walk x y → ¬ g.CycleAt y

theorem getLast?_drop_of_lt {α : Type} :
    ∀ (l : List α) (n : Nat), n < l.length → (l.drop n).getLast? = l.getLast?
  | _, 0, _ => rfl
  | a :: xs, n + 1, h => by
    have hx : n < xs.length := by simpa using h
    have hne : xs ≠ [] := by
      intro he
      rw [he] at hx
      simp at hx
    rw [List.drop_succ_cons, getLast?_drop_of_lt xs n hx]
    cases xs with
    | nil => exact absurd rfl hne
    | cons b ys => simp [List.getLast?_cons_cons]

theorem chain_getLast?_transGen {α : Type} (r : α → α → Prop) :
    ∀ (l : List α) (a b : α), List.Chain r a l → l.getLast? = some b →
      Relation.TransGen r a b
  | [], _, _, _, hl => by simp at hl
  | [c], a, b, hc, hl => by
    simp at hl
    rcases List.chain_cons.mp hc with ⟨hr, _⟩
    exact hl ▸ Relation.TransGen.single hr
  | c :: c' :: l', a, b, hc, hl => by
    rcases List.chain_cons.mp hc with ⟨hr, hc'⟩
    have hl' : (c' :: l').getLast? = some b := by
      simpa [List.getLast?_cons_cons] using hl
    exact Relation.TransGen.head hr (chain_getLast?_transGen r (c' :: l') c b hc' hl')

/-- A genuine reported cycle witnesses cyclicity of the graph. -/
theorem RealCycle.cycleAt {g : Graph} {c : List String} (h : RealCycle g c) :
    ∃ x, g.CycleAt x := by
  obtain ⟨hlen, hhl, hch⟩ := h
  cases c with
  | nil => simp at hlen
  | cons a l =>
    cases l with
    | nil => simp at hlen
    | cons b l' =>
      refine ⟨a, chain_getLast?_transGen g.Edge (b :: l') a a hch ?_⟩
      have : (a :: b :: l').getLast? = (b :: l').getLast? := List.getLast?_cons_cons
      rw [this] at hhl
      simp at hhl
      exact hhl.symm

/-- The error side of the stack DFS: whenever `cvisitAll` reports a cycle,
the reported id sequence is a genuine cycle of the graph — provided the
`path` argument is a genuine edge chain whose last element has an edge to
every worklist entry. -/
theorem cvisitAll_error_cycle (g : Graph) :
    ∀ ds path vis, List.Chain' g.Edge path →
    (∀ d ∈ ds, ∀ hne : path ≠ [], g.Edge (path.getLast hne) d) →
    ∀ c, cvisitAll g ds path vis = .error c → RealCycle g c := by
  intro ds path vis
  induction ds, path, vis using cvisitAll.induct g with
  | case1 path vis =>
    intro _ _ c hc
    simp [cvisitAll] at hc
  | case2 path vis k rest hk =>
    intro hch hlink c hc
    simp [cvisitAll, hk] at hc
    subst hc
    have hne : path ≠ [] := List.ne_nil_of_mem hk
    have hidx : path.indexOf k < path.length := List.indexOf_lt_length.2 hk
    have hdroplen : 1 ≤ (path.drop (path.indexOf k)).length := by
      simp [List.length_drop]
      omega
    refine ⟨?_, ?_, ?_⟩
    · simp only [List.length_append, List.length_cons, List.length_nil]
      omega
    · have hhead : (path.drop (path.indexOf k)).head? = some k := by
        rw [List.head?_drop]
        simp [List.getElem?_eq_getElem hidx, List.getElem_indexOf hidx]
      rw [List.getLast?_concat]
      rcases hd : path.drop (path.indexOf k) with _ | ⟨x, xs⟩
      · rw [hd] at hdroplen
        simp at hdroplen
      · rw [hd] at hhead
        simp at hhead
        simp [hhead]
    · apply List.chain'_append.2
      refine ⟨List.Chain'.drop hch _, List.chain'_singleton k, ?_⟩
      intro x hx y hy
      simp at hy
      subst hy
      rw [getLast?_drop_of_lt path _ hidx] at hx
      rw [List.getLast?_eq_getLast path hne] at hx
      simp at hx
      subst hx
      exact hlink k (by simp) hne
  | case3 path vis k rest hk hv ih =>
    intro hch hlink c hc
    rw [cvisitAll] at hc
    simp [hk, hv] at hc
    exact ih hch (fun d hd => hlink d (List.mem_cons_of_mem k hd)) c hc
  | case4 path vis k rest hk hv c' hinner ih =>
    intro hch hlink c hc
    rw [cvisitAll] at hc
    simp [hk, hv, hinner] at hc
    subst hc
    apply ih _ _ c' hinner
    · apply List.chain'_append.2
      refine ⟨hch, List.chain'_singleton k, ?_⟩
      intro x hx y hy
      simp at hy
      subst hy
      have hne : path ≠ [] := by
        intro he
        rw [he] at hx
        simp at hx
      rw [List.getLast?_eq_getLast path hne] at hx
      simp at hx
      subst hx
      exact hlink k (by simp) hne
    · intro d hd hne'
      have : (path ++ [k]).getLast hne' = k := List.getLast_concat _
      rw [this]
      exact hd
  | case5 path vis k rest hk hv r1 hinner c' hcont ih1 ih2 =>
    intro hch hlink c hc
    rw [cvisitAll] at hc
    simp [hk, hv, hinner, hcont] at hc
    subst hc
    exact ih2 hch (fun d hd => hlink d (List.mem_cons_of_mem k hd)) c' hcont
  | case6 path vis k rest hk hv r1 hinner r2 hcont ih1 ih2 =>
    intro _ _ c hc
    rw [cvisitAll] at hc
    simp [hk, hv, hinner, hcont] at hc

/-- The success side of the stack DFS: when `cvisitAll` returns cleanly,
nothing reachable from any worklist entry lies on a cycle (and every worklist
entry ends up visited). -/
theorem cvisitAll_ok_spec (g : Graph) :
    ∀ ds path vis, CycleFreeFrom g vis path → (∀ x ∈ path, x ∈ vis) →
    ∀ v, cvisitAll g ds path vis = .ok v →
      CycleFreeFrom g v.1 path ∧
      (∀ d ∈ ds, ∀ y, g.Walk d y → ¬ g.CycleAt y) ∧
      (∀ d ∈ ds, d ∈ v.1) := by
  intro ds path vis
  induction ds, path, vis using cvisitAll.induct g with
  | case1 path vis =>
    intro hcf _ v hv
    rw [cvisitAll] at hv
    simp at hv
    refine ⟨?_, by simp, by simp⟩
    rw [← hv]
    exact hcf
  | case2 path vis k rest hk =>
    intro _ _ v hv
    rw [cvisitAll] at hv
    simp [hk] at hv
  | case3 path vis k rest hk hv ih =>
    intro hcf hpv v hres
    rw [cvisitAll] at hres
    simp [hk, hv] at hres
    obtain ⟨h1, h2, h3⟩ := ih hcf hpv v hres
    refine ⟨h1, ?_, ?_⟩
    · intro d hd
      rcases List.mem_cons.mp hd with rfl | hd'
      · exact hcf d hv hk
      · exact h2 d hd'
    · intro d hd
      rcases List.mem_cons.mp hd with rfl | hd'
      · exact v.2 d hv
      · exact h3 d hd'
  | case4 path vis k rest hk hv c' hinner ih =>
    intro _ _ v hres
    rw [cvisitAll] at hres
    simp [hk, hv, hinner] at hres
  | case5 path vis k rest hk hv r1 hinner c' hcont ih1 ih2 =>
    intro _ _ v hres
    rw [cvisitAll] at hres
    simp [hk, hv, hinner, hcont] at hres
  | case6 path vis k rest hk hv r1 hinner r2 hcont ih1 ih2 =>
    intro hcf hpv v hres
    rw [cvisitAll] at hres
    simp [hk, hv, hinner, hcont] at hres
    have hcf1 : CycleFreeFrom g (k :: vis) (path ++ [k]) := by
      intro x hx hxp y hw hcy
      rcases List.mem_cons.mp hx with rfl | hx'
      · exact hxp (by simp)
      · exact hcf x hx' (fun hxpath => hxp (by simp [hxpath])) y hw hcy
    have hpv1 : ∀ x ∈ path ++ [k], x ∈ k :: vis := by
      intro x hx
      rcases List.mem_append.mp hx with hx' | hx'
      · exact List.mem_cons_of_mem k (hpv x hx')
      · simp at hx'
        simp [hx']
    obtain ⟨i1, i2, i3⟩ := ih1 hcf1 hpv1 r1 hinner
    have hQk : ∀ y, g.Walk k y → ¬ g.CycleAt y := by
      intro y hw hcy
      rcases Relation.ReflTransGen.cases_head hw with rfl | ⟨e, hke, hey⟩
      · rcases Relation.TransGen.head'_iff.mp hcy with ⟨e, hke, hek⟩
        exact i2 e hke k hek hcy
      · exact i2 e hke y hey hcy
    have hcfr1 : CycleFreeFrom g r1.1 path := by
      intro x hx hxp y hw hcy
      by_cases hxk : x = k
      · exact hQk y (hxk ▸ hw) hcy
      · exact i1 x hx (by
          intro hmem
          rcases List.mem_append.mp hmem with h' | h'
          · exact hxp h'
          · simp at h'
            exact hxk h') y hw hcy
    have hpvr1 : ∀ x ∈ path, x ∈ r1.1 :=
      fun x hx => r1.2 x (List.mem_cons_of_mem k (hpv x hx))
    obtain ⟨j1, j2, j3⟩ := ih2 hcfr1 hpvr1 r2 hcont
    refine ⟨?_, ?_, ?_⟩
    · rw [← hres]
      exact j1
    · intro d hd
      rcases List.mem_cons.mp hd with rfl | hd'
      · exact hQk
      · exact j2 d hd'
    · intro d hd
      rw [← hres]
      rcases List.mem_cons.mp hd with rfl | hd'
      · exact r2.2 d (r1.2 d (by simp))
      · exact j3 d hd'

/-- Any cycle reported by `validateNoCycles` is a genuine cycle. -/
theorem validateNoCycles_error_real {g : Graph} {c : List String}
    (h : g.validateNoCycles = .error c) : RealCycle g c := by
  unfold Graph.validateNoCycles at h
  cases hc : cvisitAll g g.nodes [] [] with
  | error c' =>
    rw [hc] at h
    simp at h
    exact h ▸ cvisitAll_error_cycle g g.nodes [] [] (by simp)
      (fun d _ hne => absurd rfl hne) c' hc
  | ok v =>
    rw [hc] at h
    simp at h

/-- If some id on a cycle is reachable from a registered node, the validation
DFS reports a cycle. -/
theorem validateNoCycles_error_of_cycle {g : Graph}
    (h : ∃ n ∈ g.nodes, ∃ y, g.Walk n y ∧ g.CycleAt y) :
    ∃ c, g.validateNoCycles = .error c := by
  unfold Graph.validateNoCycles
  cases hc : cvisitAll g g.nodes [] [] with
  | error c => exact ⟨c, rfl⟩
  | ok v =>
    obtain ⟨n, hn, y, hw, hcy⟩ := h
    obtain ⟨_, h2, _⟩ := cvisitAll_ok_spec g g.nodes [] []
      (fun x hx => absurd hx (List.not_mem_nil x)) (fun x hx => hx) v hc
    exact absurd hcy (h2 n hn y hw)

/-- On an acyclic graph `validateNoCycles` returns without raising. -/
theorem validateNoCycles_ok_of_acyclic {g : Graph} (h : g.Acyclic) :
    g.validateNoCycles = .ok () := by
  cases hv : g.validateNoCycles with
  | ok u => rfl
  | error c =>
    rcases (validateNoCycles_error_real hv).cycleAt with ⟨x, hx⟩
    exact absurd hx (h x)

/-- Does `b` occur strictly before the first occurrence of `a` in the list? -/
def placedBefore (b a : String) : List String → Bool
  | [] => false
  | x :: xs =>
    if x = a then false
    else if x = b then decide (a ∈ xs)
    else placedBefore b a xs

theorem placedBefore_mem_left {b a : String} : ∀ (L : List String),
    placedBefore b a L = true → b ∈ L := by
  intro L
  induction L with
  | nil => simp [placedBefore]
  | cons x xs ih =>
    rw [placedBefore]
    by_cases hxa : x = a
    · simp [hxa]
    · by_cases hxb : x = b
      · simp [hxa, hxb]
      · simp only [hxa, hxb, if_false]
        intro h
        exact List.mem_cons_of_mem x (ih h)

theorem placedBefore_append {b a : String} (t : List String) : ∀ (L : List String),
    placedBefore b a L = true → placedBefore b a (L ++ t) = true := by
  intro L
  induction L with
  | nil => simp [placedBefore]
  | cons x xs ih =>
    rw [placedBefore, List.cons_append, placedBefore]
    by_cases hxa : x = a
    · simp [hxa]
    · by_cases hxb : x = b
      · subst hxb
        intro h
        rw [if_neg hxa, if_pos rfl] at h ⊢
        simp only [decide_eq_true_eq] at h ⊢
        exact List.mem_append_left t h
      · simp only [hxa, hxb, if_false]
        exact ih

theorem placedBefore_append_self {b a : String} : ∀ (L : List String),
    b ∈ L → a ∉ L → placedBefore b a (L ++ [a]) = true := by
  intro L
  induction L with
  | nil => simp
  | cons x xs ih =>
    intro hb ha
    have hxa : x ≠ a := fun he => ha (by simp [he])
    rw [List.cons_append, placedBefore]
    by_cases hxb : x = b
    · subst hxb
      simp [hxa]
    · simp only [hxa, hxb, if_false]
      rcases List.mem_cons.mp hb with he | hb'
      · exact absurd he.symm hxb
      · exact ih hb' (fun hmem => ha (List.mem_cons_of_mem x hmem))

/-- Bookkeeping facts about the post-order DFS, valid on every graph (cyclic
ones included): the output extends the accumulator by fresh ids only, stays
duplicate-free, visits every worklist id, and only emits ids reachable from
the worklist. -/
theorem visitAll_spec (g : Graph) :
    ∀ ds vis acc, acc.Nodup → (∀ x ∈ acc, x ∈ vis) →
    ∃ new,
      (visitAll g ds vis acc).1.2 = acc ++ new ∧
      (acc ++ new).Nodup ∧
      (∀ x ∈ new, x ∉ vis) ∧
      (∀ x ∈ new, x ∈ (visitAll g ds vis acc).1.1) ∧
      (∀ x ∈ ds, x ∈ (visitAll g ds vis acc).1.1) ∧
      (∀ x ∈ new, ∃ d ∈ ds, g.Walk d x) ∧
      (∀ x ∈ (visitAll g ds vis acc).1.1, x ∈ vis ∨ x ∈ new) := by
  intro ds vis acc
  induction ds, vis, acc using visitAll.induct g with
  | case1 vis acc =>
    intro hnd hav
    have he : (visitAll g [] vis acc).1 = (vis, acc) := by rw [visitAll]
    refine ⟨[], ?_, ?_, by simp, by simp, by simp, by simp, ?_⟩
    · rw [he]
      simp
    · simpa using hnd
    · rw [he]
      intro x hx
      exact Or.inl hx
  | case2 vis acc k rest hk ih =>
    intro hnd hav
    have he : (visitAll g (k :: rest) vis acc).1 = (visitAll g rest vis acc).1 := by
      rw [visitAll]
      simp [hk]
    obtain ⟨new, e1, e2, e3, e4, e5, e6, e7⟩ := ih hnd hav
    refine ⟨new, by rw [he]; exact e1, e2, e3, by rw [he]; exact e4, ?_, ?_, by rw [he]; exact e7⟩
    · rw [he]
      intro x hx
      rcases List.mem_cons.mp hx with rfl | hx'
      · exact (visitAll g rest vis acc).2 x hk
      · exact e5 x hx'
    · intro x hx
      rcases e6 x hx with ⟨d, hd, hw⟩
      exact ⟨d, List.mem_cons_of_mem k hd, hw⟩
  | case3 vis acc k rest hk r1 ih1 ihcond ihr1 ih2 =>
    refine fun hnd hav => ?_
    have he : (visitAll g (k :: rest) vis acc).1 =
        (visitAll g rest (visitAll g (g.deps k) (k :: vis) acc).1.1
          ((visitAll g (g.deps k) (k :: vis) acc).1.2 ++ [k])).1 := by
      rw [visitAll]
      simp [hk]
    obtain ⟨n1, a1, a2, a3, a4, a5, a6, a7⟩ :=
      ih1 hnd (fun x hx => List.mem_cons_of_mem k (hav x hx))
    have hkacc : k ∉ acc := fun hmem => hk (hav k hmem)
    have hkn1 : k ∉ n1 := fun hmem => (a3 k hmem) (by simp)
    have hb_nd : ((visitAll g (g.deps k) (k :: vis) acc).1.2 ++ [k]).Nodup := by
      rw [a1, List.nodup_append]
      refine ⟨a2, List.nodup_singleton k, ?_⟩
      intro a ha hb
      simp only [List.mem_singleton] at hb
      rw [hb] at ha
      rcases List.mem_append.mp ha with h' | h'
      · exact hkacc h'
      · exact hkn1 h'
    have hb_sub : ∀ x ∈ (visitAll g (g.deps k) (k :: vis) acc).1.2 ++ [k],
        x ∈ (visitAll g (g.deps k) (k :: vis) acc).1.1 := by
      intro x hx
      rcases List.mem_append.mp hx with h' | h'
      · rw [a1] at h'
        rcases List.mem_append.mp h' with h'' | h''
        · exact (visitAll g (g.deps k) (k :: vis) acc).2 x
            (List.mem_cons_of_mem k (hav x h''))
        · exact a4 x h''
      · simp at h'
        rw [h']
        exact (visitAll g (g.deps k) (k :: vis) acc).2 k (by simp)
    obtain ⟨n2, b1, b2, b3, b4, b5, b6, b7⟩ := ih2 hb_nd hb_sub
    refine ⟨n1 ++ [k] ++ n2, ?_, ?_, ?_, ?_, ?_, ?_, ?_⟩
    · rw [he, b1, a1]
      simp
    · have := b2
      rw [a1] at this
      simpa using this
    · intro x hx
      simp only [List.mem_append] at hx
      rcases hx with (hx' | hx') | hx'
      · exact fun hmem => a3 x hx' (List.mem_cons_of_mem k hmem)
      · simp at hx'
        rw [hx']
        exact hk
      · intro hmem
        exact b3 x hx'
          ((visitAll g (g.deps k) (k :: vis) acc).2 x (List.mem_cons_of_mem k hmem))
    · intro x hx
      rw [he]
      simp only [List.mem_append] at hx
      rcases hx with (hx' | hx') | hx'
      · exact (visitAll g rest (visitAll g (g.deps k) (k :: vis) acc).1.1
          ((visitAll g (g.deps k) (k :: vis) acc).1.2 ++ [k])).2 x (a4 x hx')
      · simp at hx'
        rw [hx']
        exact (visitAll g rest (visitAll g (g.deps k) (k :: vis) acc).1.1
          ((visitAll g (g.deps k) (k :: vis) acc).1.2 ++ [k])).2 k
          ((visitAll g (g.deps k) (k :: vis) acc).2 k (by simp))
      · exact b4 x hx'
    · intro x hx
      rw [he]
      rcases List.mem_cons.mp hx with hxk | hx'
      · rw [hxk]
        exact (visitAll g rest (visitAll g (g.deps k) (k :: vis) acc).1.1
          ((visitAll g (g.deps k) (k :: vis) acc).1.2 ++ [k])).2 k
          ((visitAll g (g.deps k) (k :: vis) acc).2 k (by simp))
      · exact b5 x hx'
    · intro x hx
      simp only [List.mem_append] at hx
      rcases hx with (hx' | hx') | hx'
      · rcases a6 x hx' with ⟨e, he', hw⟩
        exact ⟨k, by simp, Relation.ReflTransGen.head he' hw⟩
      · simp at hx'
        rw [hx']
        exact ⟨k, by simp, Relation.ReflTransGen.refl⟩
      · rcases b6 x hx' with ⟨d, hd, hw⟩
        exact ⟨d, List.mem_cons_of_mem k hd, hw⟩
    · intro x hx
      rw [he] at hx
      rcases b7 x hx with hx' | hx'
      · rcases a7 x hx' with hx'' | hx''
        · rcases List.mem_cons.mp hx'' with rfl | hx'''
          · simp
          · exact Or.inl hx'''
        · simp [hx'']
      · simp [hx']

/-- The ordering invariant of the post-order DFS: with `gray` the ids on the
conceptual recursion stack, every emitted id's dependencies are either emitted
strictly earlier or still gray. -/
def OrdInv (g : Graph) (acc gray : List String) : Prop :=
  ∀ a ∈ acc, ∀ b, g.Edge a b → placedBefore b a acc = true ∨ b ∈ gray

/-- On an acyclic graph the post-order DFS preserves the ordering invariant:
dependencies always land strictly before their dependents in the output. -/
theorem visitAll_order (g : Graph) (hA : g.Acyclic) :
    ∀ ds vis acc, ∀ gray : List String,
    (∀ x ∈ vis, x ∈ acc ∨ x ∈ gray) → (∀ x ∈ acc, x ∈ vis) →
    (∀ x ∈ gray, x ∈ vis) → acc.Nodup → OrdInv g acc gray →
    OrdInv g (visitAll g ds vis acc).1.2 gray ∧
    (∀ x ∈ (visitAll g ds vis acc).1.1,
      x ∈ (visitAll g ds vis acc).1.2 ∨ x ∈ gray) ∧
    (∀ x ∈ (visitAll g ds vis acc).1.2, x ∈ (visitAll g ds vis acc).1.1) ∧
    (visitAll g ds vis acc).1.2.Nodup := by
  intro ds vis acc
  induction ds, vis, acc using visitAll.induct g with
  | case1 vis acc =>
    intro gray h1 h2 h3 hnd hOI
    have he : (visitAll g [] vis acc).1 = (vis, acc) := by rw [visitAll]
    rw [he]
    exact ⟨hOI, h1, h2, hnd⟩
  | case2 vis acc k rest hk ih =>
    intro gray h1 h2 h3 hnd hOI
    have he : (visitAll g (k :: rest) vis acc).1 = (visitAll g rest vis acc).1 := by
      rw [visitAll]
      simp [hk]
    rw [he]
    exact ih gray h1 h2 h3 hnd hOI
  | case3 vis acc k rest hk r1 ih1 ihcond ihr1 ih2 =>
    intro gray h1 h2 h3 hnd hOI
    have he : (visitAll g (k :: rest) vis acc).1 =
        (visitAll g rest (visitAll g (g.deps k) (k :: vis) acc).1.1
          ((visitAll g (g.deps k) (k :: vis) acc).1.2 ++ [k])).1 := by
      rw [visitAll]
      simp [hk]
    have hsub1 : ∀ x ∈ k :: vis, x ∈ (visitAll g (g.deps k) (k :: vis) acc).1.1 :=
      (visitAll g (g.deps k) (k :: vis) acc).2
    obtain ⟨n1, s1, s2, s3, s4, s5, s6, s7⟩ :=
      visitAll_spec g (g.deps k) (k :: vis) acc hnd
        (fun x hx => List.mem_cons_of_mem k (h2 x hx))
    obtain ⟨o1, o2, o3, o4⟩ := ih1 (gray ++ [k])
      (by
        intro x hx
        rcases List.mem_cons.mp hx with hxk | hx'
        · exact Or.inr (by simp [hxk])
        · rcases h1 x hx' with h' | h'
          · exact Or.inl h'
          · exact Or.inr (List.mem_append_left _ h'))
      (fun x hx => List.mem_cons_of_mem k (h2 x hx))
      (by
        intro x hx
        rcases List.mem_append.mp hx with h' | h'
        · exact List.mem_cons_of_mem k (h3 x h')
        · simp at h'
          simp [h'])
      hnd
      (by
        intro a ha b hb
        rcases hOI a ha b hb with h' | h'
        · exact Or.inl h'
        · exact Or.inr (List.mem_append_left _ h'))
    have hkacc : k ∉ acc := fun hmem => hk (h2 k hmem)
    have hkn1 : k ∉ n1 := fun hmem => (s3 k hmem) (by simp)
    have hknA : k ∉ (visitAll g (g.deps k) (k :: vis) acc).1.2 := by
      rw [s1]
      intro hmem
      rcases List.mem_append.mp hmem with h' | h'
      · exact hkacc h'
      · exact hkn1 h'
    have hnd2 : ((visitAll g (g.deps k) (k :: vis) acc).1.2 ++ [k]).Nodup := by
      rw [List.nodup_append]
      refine ⟨o4, List.nodup_singleton k, ?_⟩
      intro a ha hb
      simp only [List.mem_singleton] at hb
      rw [hb] at ha
      exact hknA ha
    have hOI2 : OrdInv g ((visitAll g (g.deps k) (k :: vis) acc).1.2 ++ [k]) gray := by
      intro a ha b hb
      rcases List.mem_append.mp ha with ha' | ha'
      · rcases o1 a ha' b hb with hpb | hgr
        · exact Or.inl (placedBefore_append [k] _ hpb)
        · rcases List.mem_append.mp hgr with hgr' | hgr'
          · exact Or.inr hgr'
          · simp only [List.mem_singleton] at hgr'
            rw [hgr'] at hb
            rw [s1] at ha'
            rcases List.mem_append.mp ha' with ha'' | ha''
            · rcases hOI a ha'' k hb with hpb' | hgr''
              · exact absurd (h2 k (placedBefore_mem_left acc hpb')) hk
              · exact absurd (h3 k hgr'') hk
            · rcases s6 a ha'' with ⟨e, hed, hwa⟩
              exact absurd (Relation.TransGen.head' hed (hwa.tail hb)) (hA k)
      · simp only [List.mem_singleton] at ha'
        rw [ha'] at hb ⊢
        have hbA : b ∈ (visitAll g (g.deps k) (k :: vis) acc).1.1 := s5 b hb
        rcases o2 b hbA with hb' | hb'
        · exact Or.inl (placedBefore_append_self _ hb' hknA)
        · rcases List.mem_append.mp hb' with hb'' | hb''
          · exact Or.inr hb''
          · simp only [List.mem_singleton] at hb''
            rw [hb''] at hb
            exact absurd (Relation.TransGen.single hb) (hA k)
    obtain ⟨f1, f2, f3, f4⟩ := ih2 gray
      (by
        intro x hx
        rcases o2 x hx with h' | h'
        · exact Or.inl (List.mem_append_left _ h')
        · rcases List.mem_append.mp h' with h'' | h''
          · exact Or.inr h''
          · exact Or.inl (List.mem_append_right _ h''))
      (by
        intro x hx
        rcases List.mem_append.mp hx with h' | h'
        · exact o3 x h'
        · simp only [List.mem_singleton] at h'
          rw [h']
          exact hsub1 k (by simp))
      (fun x hx => hsub1 x (List.mem_cons_of_mem k (h3 x hx)))
      hnd2 hOI2
    rw [he]
    exact ⟨f1, f2, f3, f4⟩

theorem alistGet_alistSet {α : Type} (m : List (String × α)) (k k' : String) (v : α) :
    alistGet (alistSet m k v) k' = if k = k' then some v else alistGet m k' := by
  induction m with
  | nil => by_cases h : k = k' <;> simp [alistSet, alistGet, h]
  | cons e rest ih =>
    obtain ⟨ek, ev⟩ := e
    by_cases hek : ek = k
    · rw [alistSet]
      simp only [hek, if_true]
      by_cases hkk : k = k'
      · simp [alistGet, hek, hkk]
      · have : ek ≠ k' := by rw [hek]; exact hkk
        simp [alistGet, hek, hkk, this]
    · rw [alistSet]
      simp only [hek, if_false]
      by_cases hekk : ek = k'
      · have : ¬k = k' := fun h => hek (h ▸ hekk)
        simp [alistGet, hekk, this]
      · simp [alistGet, hekk, ih]

theorem setAdd_mem (l : List String) (x y : String) :
    x ∈ setAdd l y ↔ x ∈ l ∨ x = y := by
  unfold setAdd
  by_cases h : y ∈ l
  · simp only [h, if_true]
    constructor
    · exact Or.inl
    · intro hx
      rcases hx with hx | hx
      · exact hx
      · exact hx ▸ h
  · simp [h]

theorem addTest_deps (g : Graph) (id a : String) :
    (g.addTest id).deps a = g.deps a := by
  unfold Graph.addTest Graph.deps
  simp only
  rw [alistGet_alistSet]
  by_cases h : id = a
  · rw [if_pos h, h]
    rfl
  · rw [if_neg h]

theorem addTest_revDeps (g : Graph) (id a : String) :
    (g.addTest id).revDeps a = g.revDeps a := by
  unfold Graph.addTest Graph.revDeps
  simp only
  rw [alistGet_alistSet]
  by_cases h : id = a
  · rw [if_pos h, h]
    rfl
  · rw [if_neg h]

theorem addDependency_deps (g : Graph) (f t a : String) :
    (g.addDependency f t).deps a =
      if f = a then setAdd (g.deps f) t else g.deps a := by
  unfold Graph.addDependency Graph.deps
  simp only
  rw [alistGet_alistSet]
  by_cases h : f = a
  · rw [if_pos h, if_pos h, h]
    rfl
  · rw [if_neg h, if_neg h]

theorem addDependency_revDeps (g : Graph) (f t a : String) :
    (g.addDependency f t).revDeps a =
      if t = a then setAdd (g.revDeps t) f else g.revDeps a := by
  unfold Graph.addDependency Graph.revDeps
  simp only
  rw [alistGet_alistSet]
  by_cases h : t = a
  · rw [if_pos h, if_pos h, h]
    rfl
  · rw [if_neg h, if_neg h]

/-- The mutual-inverse invariant of the two edge maps. -/
def EdgeInv (g : Graph) : Prop :=
  ∀ a b : String, b ∈ g.deps a ↔ a ∈ g.revDeps b

theorem edgeInv_empty : EdgeInv Graph.empty := by
  intro a b
  simp [Graph.empty, Graph.deps, Graph.revDeps, alistGet]

theorem edgeInv_addTest (g : Graph) (id : String) (h : EdgeInv g) :
    EdgeInv (g.addTest id) := by
  intro a b
  rw [addTest_deps, addTest_revDeps]
  exact h a b

theorem edgeInv_addDependency (g : Graph) (f t : String) (h : EdgeInv g) :
    EdgeInv (g.addDependency f t) := by
  intro a b
  rw [addDependency_deps, addDependency_revDeps]
  by_cases hfa : f = a
  · by_cases htb : t = b
    · rw [if_pos hfa, if_pos htb, setAdd_mem, setAdd_mem]
      subst hfa
      subst htb
      simp
    · rw [if_pos hfa, if_neg htb, setAdd_mem]
      subst hfa
      constructor
      · intro hx
        rcases hx with hx | hx
        · exact (h f b).mp hx
        · exact absurd hx.symm htb
      · intro hx
        exact Or.inl ((h f b).mpr hx)
  · by_cases htb : t = b
    · rw [if_neg hfa, if_pos htb, setAdd_mem]
      subst htb
      constructor
      · intro hx
        exact Or.inl ((h a t).mp hx)
      · intro hx
        rcases hx with hx | hx
        · exact (h a t).mpr hx
        · exact absurd hx.symm hfa
    · rw [if_neg hfa, if_neg htb]
      exact h a b

theorem edgeInv_applyOp (g : Graph) (op : GraphOp) (h : EdgeInv g) :
    EdgeInv (applyOp g op) := by
  cases op with
  | addTest id => exact edgeInv_addTest g id h
  | addDependency a b => exact edgeInv_addDependency g a b h
  | clear => exact edgeInv_empty

theorem edgeInv_foldl : ∀ (ops : List GraphOp) (g : Graph), EdgeInv g →
    EdgeInv (ops.foldl applyOp g)
  | [], _, h => h
  | op :: rest, g, h => edgeInv_foldl rest (applyOp g op) (edgeInv_applyOp g op h)

theorem normalizeKey_head (key : String) (cf : Option String) :
    ∃ tl, normalizeKey key cf = key :: tl := by
  rcases hf : (parseTestKey key).file with _ | f
  · rcases cf with _ | c
    · exact ⟨[], by simp [normalizeKey, hf]⟩
    · exact ⟨[((c.splitOn "/").getLastD c) ++ " > " ++ (parseTestKey key).testTitle],
        by simp [normalizeKey, hf]⟩
  · exact ⟨[f ++ " > " ++ (parseTestKey key).testTitle, (parseTestKey key).testTitle],
      by simp [normalizeKey, hf]⟩

theorem foldl_delete_eq : ∀ (ks : List String) (s : StoreSt),
    (∀ e ∈ s.results, e.1 ∈ ks) → (∀ e ∈ s.pending, e.1 ∈ ks) →
    ks.foldl (fun acc k => ResultStore.delete acc k) s =
      ⟨[], [], s.nextHandle, s.now⟩
  | [], s, hr, hp => by
    obtain ⟨res, pend, nh, now⟩ := s
    have h1 : res = [] := by
      cases hres : res with
      | nil => rfl
      | cons e rest =>
        exact absurd (hr e (by rw [hres]; simp)) (List.not_mem_nil _)
    have h2 : pend = [] := by
      cases hpend : pend with
      | nil => rfl
      | cons e rest =>
        exact absurd (hp e (by rw [hpend]; simp)) (List.not_mem_nil _)
    simp [h1, h2]
  | k :: ks, s, hr, hp => by
    rw [List.foldl_cons]
    have := foldl_delete_eq ks (ResultStore.delete s k)
      (by
        intro e he
        unfold ResultStore.delete alistErase at he
        simp only [List.mem_filter, decide_eq_true_eq] at he
        rcases List.mem_cons.mp (hr e he.1) with h' | h'
        · exact absurd h' he.2
        · exact h')
      (by
        intro e he
        unfold ResultStore.delete alistErase at he
        simp only [List.mem_filter, decide_eq_true_eq] at he
        rcases List.mem_cons.mp (hp e he.1) with h' | h'
        · exact absurd h' he.2
        · exact h')
    rw [this]
    rfl

theorem exactProbe_empty (pend : List (String × Nat)) (nh now : Nat) :
    ∀ ks, exactProbe ⟨[], pend, nh, now⟩ ks = none
  | [] => rfl
  | k :: ks => by
    rw [exactProbe]
    simp only [ResultStore.has, alistGet, Option.isSome_none, Bool.false_eq_true,
      if_false]
    exact exactProbe_empty pend nh now ks

theorem fuzzyScan_nil (s : StoreSt) (f t : String) :
    fuzzyScan s f t [] = ⟨false, none, .pending⟩ := rfl

theorem findResult_empty (pend : List (String × Nat)) (nh now : Nat)
    (key : String) (cf : Option String) :
    findResult ⟨[], pend, nh, now⟩ key cf = ⟨false, none, .pending⟩ := by
  unfold findResult findResultWithFuzzyMatch
  rw [exactProbe_empty]
  dsimp only
  rcases hf : (parseTestKey key).file with _ | f
  · rfl
  · dsimp only
    split
    · rfl
    · rfl

/-- C1 helper: the pending branch of `executeTest` returns immediately. -/
theorem executeTest_pending (env : ExecEnv) (fuel : Nat) (key : String)
    (deps : List DepDef) (s : StoreSt) (h : Nat)
    (hp : ResultStore.getPending s key = some h) :
    executeTest env (fuel + 1) key deps s = (.ok (.handle h), s, []) := by
  unfold executeTest
  rw [runExec]
  rw [hp]

/-- C1: Single-flight execution: for a key holding a registered pending
execution handle in the result store, `executeTest` returns that exact handle
without invoking any task body (empty invocation log), without executing
dependencies, and without writing to the cache (the store is unchanged); a
second scheduling request against the resulting state attaches to the very
same handle, so both requesters await the same settled payload or failure. -/
theorem claim_c1_single_flight (env : ExecEnv) (fuel fuel2 : Nat) (key : String)
    (deps : List DepDef) (s : StoreSt) (h : Nat)
    (hp : ResultStore.getPending s key = some h) :
    executeTest env (fuel + 1) key deps s = (.ok (.handle h), s, []) ∧
    executeTest env (fuel2 + 1) key deps
      (executeTest env (fuel + 1) key deps s).2.1 = (.ok (.handle h), s, []) := by
  have h1 := executeTest_pending env fuel key deps s h hp
  refine ⟨h1, ?_⟩
  rw [h1]
  exact executeTest_pending env fuel2 key deps s h hp

/-- Witness for C1 at a concrete store with an in-flight handle. -/
theorem claim_c1_witness :
    executeTest ⟨⟨60000, .skip, false⟩, [], fun _ => .ok 0, none⟩ 1 "t" []
        ⟨[], [("t", 7)], 0, 0⟩ =
      (.ok (.handle 7), ⟨[], [("t", 7)], 0, 0⟩, []) ∧
    executeTest ⟨⟨60000, .skip, false⟩, [], fun _ => .ok 0, none⟩ 1 "t" []
        (executeTest ⟨⟨60000, .skip, false⟩, [], fun _ => .ok 0, none⟩ 1 "t" []
          ⟨[], [("t", 7)], 0, 0⟩).2.1 =
      (.ok (.handle 7), ⟨[], [("t", 7)], 0, 0⟩, []) :=
  claim_c1_single_flight _ 0 0 "t" [] _ 7 rfl

/-- C5: Failure policy: task A declares a dependency on B, and B's cached
status is `failed`.  Under policy `fail`, `executeTest` for A raises a
dependency-failure error, the store is untouched and A's body is never
invoked (empty log); under policy `skip`, A's dependency-resolution step
completes without raising and A's body is still invoked (the log is exactly
`[A]`). -/
theorem claim_c5_failure_policy (env : ExecEnv) (fuel : Nat) (keyA keyB : String)
    (s : StoreSt) (rB : TestResultR)
    (hpA : ResultStore.getPending s keyA = none)
    (hhA : ResultStore.has s keyA = false)
    (hB : alistGet s.results keyB = some rB)
    (hBf : rB.status = .failed) :
    (env.cfg.onDependencyFailure = .fail →
      ∃ e, executeTest env (fuel + 4) keyA [⟨keyB⟩] s = (.error e, s, [])) ∧
    (env.cfg.onDependencyFailure = .skip →
      executeDependencies env (fuel + 3) [⟨keyB⟩] s = (.ok (.value none), s, []) ∧
      (executeTest env (fuel + 4) keyA [⟨keyB⟩] s).2.2 = [keyA]) := by
  have hhB : ResultStore.has s keyB = true := by simp [ResultStore.has, hB]
  have hsB : ResultStore.getStatus s keyB = .failed := by
    simp [ResultStore.getStatus, hB, hBf]
  obtain ⟨tl, htl⟩ := normalizeKey_head keyB env.currentFile
  constructor
  · intro hf
    refine ⟨"Dependency failed: " ++ keyB, ?_⟩
    simp [executeTest, runExec, hpA, hhA, htl, hhB, hsB, hf]
  · intro hsk
    constructor
    · simp [executeDependencies, runExec, htl, hhB, hsB, hsk]
    · cases hb : env.bodies keyA with
      | ok dv => simp [executeTest, runExec, hpA, hhA, htl, hhB, hsB, hsk, hb]
      | err msg => simp [executeTest, runExec, hpA, hhA, htl, hhB, hsB, hsk, hb]

/-- Witness for C5 at a concrete store where B failed, under both policies. -/
theorem claim_c5_witness :
    (∃ e, executeTest ⟨⟨60000, .fail, false⟩, [], fun _ => .ok 1, none⟩ 4 "A"
      [⟨"B"⟩] ⟨[("B", ⟨.failed, none, none, 0⟩)], [], 0, 0⟩ =
      (.error e, ⟨[("B", ⟨.failed, none, none, 0⟩)], [], 0, 0⟩, [])) ∧
    (executeTest ⟨⟨60000, .skip, false⟩, [], fun _ => .ok 1, none⟩ 4 "A"
      [⟨"B"⟩] ⟨[("B", ⟨.failed, none, none, 0⟩)], [], 0, 0⟩).2.2 = ["A"] :=
  ⟨(claim_c5_failure_policy ⟨⟨60000, .fail, false⟩, [], fun _ => .ok 1, none⟩ 0
      "A" "B" ⟨[("B", ⟨.failed, none, none, 0⟩)], [], 0, 0⟩
      ⟨.failed, none, none, 0⟩ rfl rfl rfl rfl).1 rfl,
    ((claim_c5_failure_policy ⟨⟨60000, .skip, false⟩, [], fun _ => .ok 1, none⟩ 0
      "A" "B" ⟨[("B", ⟨.failed, none, none, 0⟩)], [], 0, 0⟩
      ⟨.failed, none, none, 0⟩ rfl rfl rfl rfl).2 rfl).2⟩

/-- C7: Rerun semantics: `rerun` deletes the cached record and pending handle
for every candidate form of the key and then performs the equivalent of
`require`; for a key previously recorded as `passed` (in a store whose entries
are all candidate forms of that key) the old payload is discarded and the
registered body executes exactly one additional time, leaving a fresh `passed`
record with the new payload. -/
theorem claim_c7_rerun (env : ExecEnv) (fuel : Nat) (testKey : String)
    (s : StoreSt) (r : TestResultR) (d : Data)
    (hreg : alistGet env.registry testKey = some ⟨[]⟩)
    (hbody : env.bodies testKey = .ok d)
    (hprev : alistGet s.results testKey = some r)
    (hpassed : r.status = .passed)
    (hres : ∀ e ∈ s.results, e.1 ∈ normalizeKey testKey env.currentFile)
    (hpend : ∀ e ∈ s.pending, e.1 ∈ normalizeKey testKey env.currentFile) :
    (∀ k ∈ normalizeKey testKey env.currentFile,
      ResultStore.has ((normalizeKey testKey env.currentFile).foldl
        (fun acc kk => ResultStore.delete acc kk) s) k = false ∧
      ResultStore.getPending ((normalizeKey testKey env.currentFile).foldl
        (fun acc kk => ResultStore.delete acc kk) s) k = none) ∧
    relayRerun env (fuel + 2) testKey s =
      (.ok (.val (some d)),
        ⟨[(testKey, ⟨.passed, some d, none, s.now⟩)], [], s.nextHandle + 1, s.now⟩,
        [testKey]) := by
  have hfold := foldl_delete_eq (normalizeKey testKey env.currentFile) s hres hpend
  constructor
  · intro k _
    rw [hfold]
    exact ⟨rfl, rfl⟩
  · obtain ⟨tl, htl⟩ := normalizeKey_head testKey env.currentFile
    unfold relayRerun
    rw [hfold]
    unfold relayRequire
    simp only [findResult_empty]
    rw [htl]
    unfold requireLoop
    rw [hreg]
    simp [runExec, hbody, ResultStore.getPending, ResultStore.has, alistGet,
      ResultStore.set, ResultStore.setPending, ResultStore.removePending,
      alistSet, alistErase]

/-- Witness for C7 at a concrete previously-passed store. -/
theorem claim_c7_witness :
    relayRerun ⟨⟨60000, .skip, false⟩, [("t", ⟨[]⟩)], fun _ => .ok 42, none⟩ 2 "t"
        ⟨[("t", ⟨.passed, some 1, none, 5⟩)], [], 3, 5⟩ =
      (.ok (.val (some 42)), ⟨[("t", ⟨.passed, some 42, none, 5⟩)], [], 4, 5⟩,
        ["t"]) :=
  (claim_c7_rerun ⟨⟨60000, .skip, false⟩, [("t", ⟨[]⟩)], fun _ => .ok 42, none⟩ 0
    "t" ⟨[("t", ⟨.passed, some 1, none, 5⟩)], [], 3, 5⟩ ⟨.passed, some 1, none, 5⟩
    42 rfl rfl rfl rfl (by decide) (by decide)).2

/-- C4: Fuzzy matching: with the cache holding a record under
`"setup.spec.ts > [setup] create user"` and no exact candidate matching, a
`findResult` lookup for `"setup.spec.ts > create user"` succeeds via the
fuzzy scan (same parsed file, stored title ends with the reference title) and
returns that record's data and status. -/
theorem claim_c4_fuzzy_match (r : TestResultR) (pend : List (String × Nat))
    (nh now : Nat) :
    findResult ⟨[("setup.spec.ts > [setup] create user", r)], pend, nh, now⟩
      "setup.spec.ts > create user" none = ⟨true, r.data, r.status⟩ := by
  have hn : normalizeKey "setup.spec.ts > create user" none =
      ["setup.spec.ts > create user", "setup.spec.ts > create user",
        "create user"] := by decide
  have hp1 : parseTestKey "setup.spec.ts > create user" =
      ⟨some "setup.spec.ts", "create user"⟩ := by decide
  have hp2 : parseTestKey "setup.spec.ts > [setup] create user" =
      ⟨some "setup.spec.ts", "[setup] create user"⟩ := by decide
  have hew : strEndsWith "[setup] create user" "create user" = true := by decide
  unfold findResult findResultWithFuzzyMatch
  rw [hn]
  simp [exactProbe, ResultStore.has, alistGet, hp1, hp2, hew, fuzzyScan,
    ResultStore.getData, ResultStore.getStatus]

/-- C6 counterexample: the sequence `normalizeKey` returns for an
explicit-file reference is not deduplicated — the concrete call of the claim
returns the exact form twice. -/
theorem claim_c6_counterexample :
    ¬ (normalizeKey "auth.spec.ts > login" (some "profile.spec.ts")).Nodup := by
  decide

/-- C6 (amended): for every reference carrying an explicit file,
`normalizeKey` ignores the context file entirely (the output does not depend
on it); the raw output may repeat the explicit form, and after deduplication
the concrete call of the claim yields exactly
`["auth.spec.ts > login", "login"]`. -/
theorem claim_c6_normalization :
    (∀ (key : String) (cf cf' : Option String),
      (parseTestKey key).file.isSome = true →
      normalizeKey key cf = normalizeKey key cf') ∧
    (normalizeKey "auth.spec.ts > login" (some "profile.spec.ts")).dedup =
      ["auth.spec.ts > login", "login"] := by
  constructor
  · intro key cf cf' hs
    rcases hf : (parseTestKey key).file with _ | f
    · rw [hf] at hs
      simp at hs
    · simp [normalizeKey, hf]
  · decide

/-- Witness for C6 (amended): the context file really is ignored. -/
theorem claim_c6_witness :
    normalizeKey "auth.spec.ts > login" (some "profile.spec.ts") =
      normalizeKey "auth.spec.ts > login" none :=
  claim_c6_normalization.1 "auth.spec.ts > login" (some "profile.spec.ts") none
    (by decide)

/-- C10: `relay.from` throws exactly when no candidate is found or the found
record's status is `failed`; for every found record of any other status —
`pending`, `running`, `skipped`, `passed` — it returns the stored data
without raising, which for an engine-written `running`/`skipped` record
(payload absent) means returning `undefined` rather than an error. -/
theorem claim_c10_from (s : StoreSt) (cf : Option String) (testKey : String) :
    ((findResult s testKey cf).found = false →
      relayFrom s cf testKey = .error ("Dependency not executed: " ++ testKey)) ∧
    ((findResult s testKey cf).found = true →
      (findResult s testKey cf).status = .failed →
      relayFrom s cf testKey = .error ("Dependency failed: " ++ testKey)) ∧
    ((findResult s testKey cf).found = true →
      (findResult s testKey cf).status ≠ .failed →
      relayFrom s cf testKey = .ok (findResult s testKey cf).data) ∧
    (∀ e, relayFrom s cf testKey = .error e →
      (findResult s testKey cf).found = false ∨
      (findResult s testKey cf).status = .failed) ∧
    ((findResult s testKey cf).found = true →
      ((findResult s testKey cf).status = .running ∨
        (findResult s testKey cf).status = .skipped) →
      (findResult s testKey cf).data = none →
      relayFrom s cf testKey = .ok none) := by
  have hA : (findResult s testKey cf).found = false →
      relayFrom s cf testKey = .error ("Dependency not executed: " ++ testKey) := by
    intro h
    simp [relayFrom, h]
  have hB : (findResult s testKey cf).found = true →
      (findResult s testKey cf).status = .failed →
      relayFrom s cf testKey = .error ("Dependency failed: " ++ testKey) := by
    intro h1 h2
    simp [relayFrom, h1, h2]
  have hC : (findResult s testKey cf).found = true →
      (findResult s testKey cf).status ≠ .failed →
      relayFrom s cf testKey = .ok (findResult s testKey cf).data := by
    intro h1 h2
    simp [relayFrom, h1, h2]
  refine ⟨hA, hB, hC, ?_, ?_⟩
  · intro e he
    by_cases h1 : (findResult s testKey cf).found = false
    · exact Or.inl h1
    · have h1' : (findResult s testKey cf).found = true := by
        revert h1
        cases (findResult s testKey cf).found <;> simp
      by_cases h2 : (findResult s testKey cf).status = .failed
      · exact Or.inr h2
      · rw [hC h1' h2] at he
        simp at he
  · intro h1 h2 h3
    have h2' : (findResult s testKey cf).status ≠ .failed := by
      rcases h2 with h' | h' <;> rw [h'] <;> simp
    rw [hC h1 h2', h3]

/-- Witness for C10 at a concrete store holding a skipped record with no
payload: `from` returns `undefined` instead of raising. -/
theorem claim_c10_witness :
    relayFrom ⟨[("t", ⟨.skipped, none, none, 0⟩)], [], 0, 0⟩ none "t" =
      .ok none :=
  (claim_c10_from ⟨[("t", ⟨.skipped, none, none, 0⟩)], [], 0, 0⟩ none
    "t").2.2.2.2 (by decide) (Or.inr (by decide)) (by decide)

/-- Two `addDependency` calls with no `addTest`: the edge maps hold a
directed 2-cycle between unregistered ids, while the node map stays empty. -/
def gStray : Graph := (Graph.empty.addDependency "a" "b").addDependency "b" "a"

/-- The same 2-cycle with both tests registered via `addTest` first. -/
def gCyc2 : Graph :=
  (((Graph.empty.addTest "a").addTest "b").addDependency "a" "b").addDependency
    "b" "a"

/-- A registered acyclic 2-node graph: `"a"` depends on `"b"`. -/
def gLin : Graph :=
  ((Graph.empty.addTest "a").addTest "b").addDependency "a" "b"

/-- On a graph whose edge sources are all registered, a clean validation run
implies acyclicity. -/
theorem acyclic_of_validate_ok {g : Graph}
    (hok : g.validateNoCycles = .ok ())
    (hreg : ∀ a b : String, g.Edge a b → a ∈ g.nodes) : g.Acyclic := by
  intro x hx
  rcases Relation.TransGen.head'_iff.mp hx with ⟨e, hxe, _⟩
  rcases validateNoCycles_error_of_cycle
      ⟨x, hreg x e hxe, x, Relation.ReflTransGen.refl, hx⟩ with ⟨c, hc⟩
  rw [hc] at hok
  simp at hok

/-- C2 counterexample: a graph built by `addDependency` alone carries the
edges of a 2-cycle, yet `topologicalSort` returns `[]` instead of raising —
so the edge `("a","b")` is not placed at all, and a cyclic graph passes. -/
theorem claim_c2_counterexample :
    gStray.Edge "a" "b" ∧ gStray.Edge "b" "a" ∧
    gStray.topologicalSort = .ok [] := by
  refine ⟨?_, ?_, ?_⟩
  · simp [gStray, Graph.Edge, Graph.deps, Graph.addDependency, Graph.empty,
      alistGet, alistSet, setAdd]
  · simp [gStray, Graph.Edge, Graph.deps, Graph.addDependency, Graph.empty,
      alistGet, alistSet, setAdd]
  · simp [gStray, Graph.topologicalSort, Graph.validateNoCycles, cvisitAll,
      visitAll, Graph.addDependency, Graph.empty, alistSet, alistGet, setAdd]

/-- C2 (amended): for every graph built by `addTest`/`addDependency` in which
every edge's source id was registered via `addTest`, if the graph is acyclic
then `topologicalSort` succeeds and places `to` strictly before `from` for
every edge `(from → to)`; and on such a graph containing a cycle the whole
call raises instead of returning an order. -/
theorem claim_c2_topological_sound (g : Graph)
    (hreg : ∀ a b : String, g.Edge a b → a ∈ g.nodes) :
    (g.Acyclic →
      ∃ L, g.topologicalSort = .ok L ∧
        ∀ a b : String, g.Edge a b → placedBefore b a L = true) ∧
    ((∃ x, g.CycleAt x) → ∃ c, g.topologicalSort = .error c) := by
  constructor
  · intro hA
    have hok := validateNoCycles_ok_of_acyclic hA
    refine ⟨(visitAll g g.nodes [] []).1.2, ?_, ?_⟩
    · unfold Graph.topologicalSort
      rw [hok]
    · intro a b hab
      obtain ⟨o1, o2, o3, o4⟩ := visitAll_order g hA g.nodes [] [] []
        (fun x hx => absurd hx (List.not_mem_nil x))
        (fun x hx => absurd hx (List.not_mem_nil x))
        (fun x hx => absurd hx (List.not_mem_nil x))
        List.nodup_nil
        (fun x hx => absurd hx (List.not_mem_nil x))
      obtain ⟨new, s1, s2, s3, s4, s5, s6, s7⟩ :=
        visitAll_spec g g.nodes [] [] List.nodup_nil
          (fun x hx => absurd hx (List.not_mem_nil x))
      have haL : a ∈ (visitAll g g.nodes [] []).1.2 := by
        rcases o2 a (s5 a (hreg a b hab)) with h' | h'
        · exact h'
        · exact absurd h' (List.not_mem_nil a)
      rcases o1 a haL b hab with h' | h'
      · exact h'
      · exact absurd h' (List.not_mem_nil b)
  · rintro ⟨x, hx⟩
    rcases Relation.TransGen.head'_iff.mp hx with ⟨e, hxe, _⟩
    rcases validateNoCycles_error_of_cycle
        ⟨x, hreg x e hxe, x, Relation.ReflTransGen.refl, hx⟩ with ⟨c, hc⟩
    refine ⟨c, ?_⟩
    unfold Graph.topologicalSort
    rw [hc]

/-- Witness for C2 (amended) on a concrete registered acyclic graph. -/
theorem claim_c2_witness :
    ∃ L, gLin.topologicalSort = .ok L ∧
      ∀ a b : String, gLin.Edge a b → placedBefore b a L = true := by
  have hreg : ∀ a b : String, gLin.Edge a b → a ∈ gLin.nodes := by
    intro a b h
    simp only [gLin, Graph.Edge, Graph.deps, Graph.addDependency, Graph.addTest,
      Graph.empty, alistGet, alistSet, setAdd] at h
    by_cases h1 : a = "a"
    · simp [gLin, Graph.addDependency, Graph.addTest, Graph.empty, setAdd, h1]
    · by_cases h2 : a = "b"
      · simp [gLin, Graph.addDependency, Graph.addTest, Graph.empty, setAdd, h2]
      · exfalso
        revert h
        simp [Ne.symm h1, Ne.symm h2]
  have hok : gLin.validateNoCycles = .ok () := by
    simp [gLin, Graph.validateNoCycles, cvisitAll, Graph.addDependency,
      Graph.addTest, Graph.empty, alistGet, alistSet, setAdd, Graph.deps]
  exact (claim_c2_topological_sound gLin hreg).1 (acyclic_of_validate_ok hok hreg)

/-- C3 counterexample: the stray 2-cycle graph contains a directed cycle of
length 2 (in the edge maps), yet `validateNoCycles` returns without raising
because no node is registered. -/
theorem claim_c3_counterexample :
    gStray.Edge "a" "b" ∧ gStray.Edge "b" "a" ∧
    gStray.validateNoCycles = .ok () := by
  refine ⟨?_, ?_, ?_⟩
  · simp [gStray, Graph.Edge, Graph.deps, Graph.addDependency, Graph.empty,
      alistGet, alistSet, setAdd]
  · simp [gStray, Graph.Edge, Graph.deps, Graph.addDependency, Graph.empty,
      alistGet, alistSet, setAdd]
  · simp [gStray, Graph.validateNoCycles, cvisitAll, Graph.addDependency,
      Graph.empty, alistSet, alistGet, setAdd]

/-- C3 (amended): for every graph containing a directed cycle reachable from
a registered node, `validateNoCycles` raises a `CircularDependencyError`
whose id sequence is an actual cycle of the graph (length at least 2, first
id equal to last, consecutive ids connected by edges); and on every acyclic
graph it returns without raising. -/
theorem claim_c3_cycle_detection (g : Graph) :
    ((∃ n ∈ g.nodes, ∃ y, g.Walk n y ∧ g.CycleAt y) →
      ∃ c, g.validateNoCycles = .error c) ∧
    (∀ c, g.validateNoCycles = .error c → RealCycle g c) ∧
    (g.Acyclic → g.validateNoCycles = .ok ()) :=
  ⟨validateNoCycles_error_of_cycle,
    fun _ hc => validateNoCycles_error_real hc,
    validateNoCycles_ok_of_acyclic⟩

/-- Witness for C3 (amended) on the registered 2-cycle graph. -/
theorem claim_c3_witness : ∃ c, gCyc2.validateNoCycles = .error c := by
  have hab : gCyc2.Edge "a" "b" := by
    simp [gCyc2, Graph.Edge, Graph.deps, Graph.addDependency, Graph.addTest,
      Graph.empty, alistGet, alistSet, setAdd]
  have hba : gCyc2.Edge "b" "a" := by
    simp [gCyc2, Graph.Edge, Graph.deps, Graph.addDependency, Graph.addTest,
      Graph.empty, alistGet, alistSet, setAdd]
  exact (claim_c3_cycle_detection gCyc2).1
    ⟨"a", by simp [gCyc2, Graph.addDependency, Graph.addTest, Graph.empty, setAdd],
      "a", Relation.ReflTransGen.refl,
      Relation.TransGen.head hab (Relation.TransGen.single hba)⟩

/-- C8: Edge-map inverse invariant: after any sequence of `addTest`,
`addDependency` and `clear` operations starting from a fresh graph, the
forward and reverse edge maps are mutual inverses: `b` is among `a`'s
dependencies exactly when `a` is among `b`'s dependents. -/
theorem claim_c8_edge_inverse (ops : List GraphOp) (a b : String) :
    b ∈ (applyOps ops).getDependencies a ↔ a ∈ (applyOps ops).getDependents b :=
  edgeInv_foldl ops Graph.empty edgeInv_empty a b

/-- C9: `getExecutionOrder` is a total function on every graph — in this
embedding its termination is proved for cyclic graphs too — it never raises
and performs no cycle validation, and each id appears at most once in its
output; on the concrete registered 2-cycle it silently returns the order
`["b", "a"]` while `topologicalSort` on the same graph raises. -/
theorem claim_c9_execution_order :
    (∀ (g : Graph) (id : String), (g.getExecutionOrder id).Nodup) ∧
    gCyc2.getExecutionOrder "a" = ["b", "a"] ∧
    gCyc2.topologicalSort = .error ["a", "b", "a"] := by
  refine ⟨?_, ?_, ?_⟩
  · intro g id
    obtain ⟨new, e1, e2, _⟩ := visitAll_spec g [id] [] [] List.nodup_nil
      (fun x hx => absurd hx (List.not_mem_nil x))
    unfold Graph.getExecutionOrder
    rw [e1]
    simpa using e2
  · simp [gCyc2, Graph.getExecutionOrder, visitAll, Graph.addDependency,
      Graph.addTest, Graph.empty, alistGet, alistSet, setAdd, Graph.deps]
  · simp [gCyc2, Graph.topologicalSort, Graph.validateNoCycles, cvisitAll,
      Graph.addDependency, Graph.addTest, Graph.empty, alistGet, alistSet,
      setAdd, Graph.deps]

